import Mathlib

/-!
The helper `bitmap_set` of src/native/linux/bitmap.h

A shallow embedding of the single inline helper

```c
static inline void bitmap_set(unsigned long *bitmap, unsigned int start, unsigned int nbits) {
  for (unsigned int i = 0; i < nbits; ++i) {
    unsigned int bit = start + i;
    bitmap[bit / (8 * sizeof(unsigned long))] |= (1UL << (bit % (8 * sizeof(unsigned long))));
  }
}
```

* `unsigned int` is a natural number below `2 ^ 32`; `start + i` and `++i` are taken
  modulo `2 ^ 32`.
* `sizeof(unsigned long)` is platform dependent and is the parameter `sz` of every
  definition; the word width is `8 * sz` (computed exactly, as `size_t` holds it for any
  real `sz`).  An `unsigned long` is a natural number, `1UL << k` is reduced modulo
  `2 ^ (8 * sz)`.
* The buffer behind `unsigned long *bitmap` is a `List Nat`; the subscript is bounds
  checked and an access outside the list ends the run with `Outcome.outOfBounds`
  (undefined behaviour in C).
* The `for` loop is run with fuel; `Outcome.outOfFuel` is a loop that has not finished yet.
-/

namespace Bitmap

/-- Number of values of an `unsigned int`. -/
def UINT_MOD : Nat := 2 ^ 32

/-- Width in bits of an `unsigned long` whose `sizeof` is `sz`: `8 * sizeof(unsigned long)`. -/
def wordBits (sz : Nat) : Nat := 8 * sz

/-- The local `bit = start + i`, an `unsigned int` addition. -/
def bitIndex (start i : Nat) : Nat := (start + i) % UINT_MOD

/-- The subscript `bit / (8 * sizeof(unsigned long))`. -/
def wordIndex (sz bit : Nat) : Nat := bit / wordBits sz

/-- The shift amount `bit % (8 * sizeof(unsigned long))`. -/
def bitPos (sz bit : Nat) : Nat := bit % wordBits sz

/-- The operand `1UL << (bit % (8 * sizeof(unsigned long)))`, an `unsigned long`. -/
def bitMask (sz bit : Nat) : Nat := (1 <<< bitPos sz bit) % 2 ^ wordBits sz

/-- Machine state of the `for` loop: the counter `i`, the buffer, and a ghost count of the
body executions completed so far. -/
structure LoopState where
  i : Nat
  bitmap : List Nat
  iters : Nat
  deriving DecidableEq

/-- How a run of the loop ends. -/
inductive Outcome where
  | done (s : LoopState)
  | outOfBounds (idx : Nat)
  | outOfFuel
  deriving DecidableEq

/-- One execution of the loop body followed by `++i`.  `none` is an access outside the
buffer. -/
def loopBody (sz start : Nat) (s : LoopState) : Option LoopState :=
  let bit := bitIndex start s.i
  match s.bitmap[wordIndex sz bit]? with
  | none => none
  | some w =>
    some { i := (s.i + 1) % UINT_MOD
           bitmap := s.bitmap.set (wordIndex sz bit) (w ||| bitMask sz bit)
           iters := s.iters + 1 }

/-- The loop `for (...; i < nbits; ++i) { ... }` entered in state `s`, with at most `fuel`
body executions. -/
def bitmap_set_loop (sz start nbits : Nat) : Nat → LoopState → Outcome
  | 0, s => if s.i < nbits then .outOfFuel else .done s
  | fuel + 1, s =>
    if s.i < nbits then
      match loopBody sz start s with
      | none => .outOfBounds (wordIndex sz (bitIndex start s.i))
      | some s' => bitmap_set_loop sz start nbits fuel s'
    else .done s

/-- The run of `bitmap_set(bitmap, start, nbits)` with `fuel` body executions allowed:
the loop entered with `i = 0`. -/
def bitmap_set_run (sz : Nat) (bitmap : List Nat) (start nbits fuel : Nat) : Outcome :=
  bitmap_set_loop sz start nbits fuel { i := 0, bitmap := bitmap, iters := 0 }

/-- The buffer left by `bitmap_set(bitmap, start, nbits)`; `none` when the run does not
reach the end of the loop within `nbits` body executions. -/
def bitmap_set (sz : Nat) (bitmap : List Nat) (start nbits : Nat) : Option (List Nat) :=
  match bitmap_set_run sz bitmap start nbits nbits with
  | .done s => some s.bitmap
  | _ => none

/-- Word `k` of a buffer (`0` outside the buffer). -/
def word (bitmap : List Nat) (k : Nat) : Nat := bitmap.getD k 0

/-- Bit `i` of a bitmap: bit `i % W` of word `i / W`. -/
def getBit (sz : Nat) (bitmap : List Nat) (i : Nat) : Bool :=
  (word bitmap (wordIndex sz i)).testBit (bitPos sz i)

/-- The buffer has every word one call touches: word `bit / W` for each `bit = start + i`,
`i < nbits`. -/
def covers (sz : Nat) (bitmap : List Nat) (start nbits : Nat) : Prop :=
  ∀ i, i < nbits → wordIndex sz (bitIndex start i) < bitmap.length

/-- The size requirement of the specification: when `nbits > 0`, word index
`(start + nbits - 1) / W`, over the unbounded integers, is inside the buffer. -/
def specCovers (sz : Nat) (bitmap : List Nat) (start nbits : Nat) : Prop :=
  0 < nbits → (start + nbits - 1) / wordBits sz < bitmap.length

/-- The offsets `i` with `lo ≤ i < nbits` whose bit lands on position `p` of word `k`. -/
def Hits (sz start lo nbits k p : Nat) : Prop :=
  ∃ i, lo ≤ i ∧ i < nbits ∧
    wordIndex sz (bitIndex start i) = k ∧ bitPos sz (bitIndex start i) = p

/-- The mask of word `k` in the words of the specification: bit `j` of the word is 1
exactly when `start ≤ k * W + j < start + nbits`. -/
def rangeMask (sz start nbits k : Nat) : Nat :=
  (List.range (wordBits sz)).foldl
    (fun m j =>
      if start ≤ k * wordBits sz + j ∧ k * wordBits sz + j < start + nbits then m ||| 1 <<< j
      else m) 0

/-- The write of the loop body at counter value `i`: the buffer that `loopBody` leaves,
`none` for an access outside the buffer. -/
def bodyAt (sz start : Nat) (bitmap : List Nat) (i : Nat) : Option (List Nat) :=
  (loopBody sz start { i := i, bitmap := bitmap, iters := 0 }).map (fun s => s.bitmap)

/-- The write of the loop body applied to the offsets of a list, in the order of the list. -/
def applyOffsets (sz start : Nat) : List Nat → List Nat → Option (List Nat)
  | [], bitmap => some bitmap
  | i :: offs, bitmap => (bodyAt sz start bitmap i).bind (applyOffsets sz start offs)

/-- Number of 1-bits of a bitmap: the bit indices below its capacity `length * W` whose bit
is set. -/
def countOnes (sz : Nat) (bitmap : List Nat) : Nat :=
  ((List.range (bitmap.length * wordBits sz)).filter (fun i => getBit sz bitmap i)).length

/-! ## Auxiliary facts -/

theorem wordBits_pos {sz : Nat} (hsz : 0 < sz) : 0 < wordBits sz := by
  unfold wordBits; omega

theorem bitPos_lt {sz : Nat} (hsz : 0 < sz) (bit : Nat) : bitPos sz bit < wordBits sz :=
  Nat.mod_lt _ (wordBits_pos hsz)

theorem bitIndex_lt (start i : Nat) : bitIndex start i < UINT_MOD :=
  Nat.mod_lt _ (by unfold UINT_MOD; positivity)

theorem bitIndex_eq_of_lt {start i : Nat} (h : start + i < UINT_MOD) :
    bitIndex start i = start + i :=
  Nat.mod_eq_of_lt h

theorem bitMask_eq {sz : Nat} (hsz : 0 < sz) (bit : Nat) :
    bitMask sz bit = 2 ^ bitPos sz bit := by
  unfold bitMask
  rw [Nat.one_shiftLeft]
  exact Nat.mod_eq_of_lt (Nat.pow_lt_pow_right (by decide) (bitPos_lt hsz bit))

theorem testBit_lor_bitMask {sz : Nat} (hsz : 0 < sz) (w bit p : Nat) :
    (w ||| bitMask sz bit).testBit p = (w.testBit p || decide (bitPos sz bit = p)) := by
  rw [bitMask_eq hsz, Nat.testBit_lor, Nat.testBit_two_pow]

theorem wordIndex_bitPos (sz i : Nat) :
    wordBits sz * wordIndex sz i + bitPos sz i = i :=
  Nat.div_add_mod i (wordBits sz)

theorem word_eq_of_getElem? {bm : List Nat} {k w : Nat} (h : bm[k]? = some w) :
    word bm k = w := by
  simp [word, List.getD_eq_getElem?_getD, h]

theorem word_eq_zero {bm : List Nat} {k : Nat} (h : bm.length ≤ k) : word bm k = 0 := by
  simp [word, List.getD_eq_getElem?_getD, List.getElem?_eq_none h]

theorem word_set (bm : List Nat) (idx v k : Nat) (hidx : idx < bm.length) :
    word (bm.set idx v) k = if idx = k then v else word bm k := by
  unfold word
  rw [List.getD_eq_getElem?_getD, List.getD_eq_getElem?_getD, List.getElem?_set]
  by_cases hk : idx = k
  · subst hk
    simp [hidx]
  · simp [hk]

theorem eq_of_word_eq {a b : List Nat} (hlen : a.length = b.length)
    (h : ∀ k, k < b.length → word a k = word b k) : a = b := by
  apply List.ext_getElem?
  intro k
  by_cases hk : k < b.length
  · have h1 := h k hk
    have ha : k < a.length := by omega
    simp only [word, List.getD_eq_getElem?_getD, List.getElem?_eq_getElem ha,
      List.getElem?_eq_getElem hk, Option.getD_some] at h1
    rw [List.getElem?_eq_getElem ha, List.getElem?_eq_getElem hk, h1]
  · rw [List.getElem?_eq_none (by omega), List.getElem?_eq_none (by omega)]

/-- The loop entered at counter `s.i ≤ nbits` on a buffer holding the words still to be
touched finishes within `nbits - s.i` body executions; it ORs into the buffer exactly the
bits of the remaining offsets. -/
theorem loop_spec {sz : Nat} (hsz : 0 < sz) (start nbits : Nat) (hn : nbits < UINT_MOD) :
    ∀ (fuel : Nat) (s : LoopState), s.i ≤ nbits → nbits - s.i ≤ fuel →
      (∀ i, s.i ≤ i → i < nbits → wordIndex sz (bitIndex start i) < s.bitmap.length) →
      ∃ bm, bitmap_set_loop sz start nbits fuel s
            = .done { i := nbits, bitmap := bm, iters := s.iters + (nbits - s.i) } ∧
        bm.length = s.bitmap.length ∧
        ∀ k p, (word bm k).testBit p = true ↔
          ((word s.bitmap k).testBit p = true ∨ Hits sz start s.i nbits k p) := by
  intro fuel
  induction fuel with
  | zero =>
    intro s hle hfuel _
    have hi : s.i = nbits := by omega
    refine ⟨s.bitmap, ?_, rfl, ?_⟩
    · cases s with
      | mk i bitmap iters =>
        simp only at hi
        subst hi
        simp [bitmap_set_loop]
    · intro k p
      constructor
      · exact Or.inl
      · rintro (h | ⟨i, h1, h2, _⟩)
        · exact h
        · omega
  | succ fuel ih =>
    intro s hle hfuel hcov
    by_cases hlt : s.i < nbits
    · have hidx := hcov s.i (le_refl _) hlt
      obtain ⟨w, hw⟩ : ∃ w, s.bitmap[wordIndex sz (bitIndex start s.i)]? = some w :=
        ⟨_, List.getElem?_eq_getElem hidx⟩
      have hinc : (s.i + 1) % UINT_MOD = s.i + 1 := Nat.mod_eq_of_lt (by omega)
      have hbody : loopBody sz start s = some
          { i := s.i + 1
            bitmap := s.bitmap.set (wordIndex sz (bitIndex start s.i))
              (w ||| bitMask sz (bitIndex start s.i))
            iters := s.iters + 1 } := by
        simp [loopBody, hw, hinc]
      obtain ⟨bm, hrun, hlen, hbits⟩ := ih
        { i := s.i + 1
          bitmap := s.bitmap.set (wordIndex sz (bitIndex start s.i))
            (w ||| bitMask sz (bitIndex start s.i))
          iters := s.iters + 1 } (show s.i + 1 ≤ nbits from hlt)
        (show nbits - (s.i + 1) ≤ fuel by omega)
        (by
          intro i h1 h2
          rw [List.length_set]
          exact hcov i (by simp only at h1; omega) h2)
      refine ⟨bm, ?_, ?_, ?_⟩
      · rw [bitmap_set_loop, if_pos hlt, hbody]
        simp only [hrun]
        congr 2
        omega
      · rw [hlen, List.length_set]
      · intro k p
        rw [hbits k p]
        simp only
        rw [word_set _ _ _ _ hidx]
        have hword := word_eq_of_getElem? hw
        constructor
        · rintro (h | ⟨i, h1, h2, h3, h4⟩)
          · by_cases hk : wordIndex sz (bitIndex start s.i) = k
            · rw [if_pos hk, testBit_lor_bitMask hsz, Bool.or_eq_true] at h
              rcases h with h | h
              · left; rw [← hk, hword]; exact h
              · right; exact ⟨s.i, le_refl _, hlt, hk, of_decide_eq_true h⟩
            · rw [if_neg hk] at h; exact Or.inl h
          · right; exact ⟨i, by omega, h2, h3, h4⟩
        · rintro (h | ⟨i, h1, h2, h3, h4⟩)
          · left
            by_cases hk : wordIndex sz (bitIndex start s.i) = k
            · rw [if_pos hk, testBit_lor_bitMask hsz, Bool.or_eq_true]
              left; rw [← hk, hword] at h; exact h
            · rw [if_neg hk]; exact h
          · by_cases hi : i = s.i
            · left
              subst hi
              rw [if_pos h3, testBit_lor_bitMask hsz, Bool.or_eq_true]
              right; exact decide_eq_true h4
            · right; exact ⟨i, by omega, h2, h3, h4⟩
    · have hi : s.i = nbits := by omega
      refine ⟨s.bitmap, ?_, rfl, ?_⟩
      · cases s with
        | mk i bitmap iters =>
          simp only at hi
          subst hi
          simp [bitmap_set_loop]
      · intro k p
        constructor
        · exact Or.inl
        · rintro (h | ⟨i, h1, h2, _⟩)
          · exact h
          · omega

/-- Whatever the buffer, a loop entered at `s.i ≤ nbits < 2 ^ 32` with `nbits - s.i` body
executions allowed does not run out of fuel: it ends at the loop test with `i = nbits`
after `nbits - s.i` further body executions, or at an access outside the buffer. -/
theorem loop_outcome (sz start nbits : Nat) (hn : nbits < UINT_MOD) :
    ∀ (fuel : Nat) (s : LoopState), s.i ≤ nbits → nbits - s.i ≤ fuel →
      (∃ bm, bitmap_set_loop sz start nbits fuel s
          = .done { i := nbits, bitmap := bm, iters := s.iters + (nbits - s.i) }) ∨
      (∃ idx, bitmap_set_loop sz start nbits fuel s = .outOfBounds idx) := by
  intro fuel
  induction fuel with
  | zero =>
    intro s hle hfuel
    left
    have hi : s.i = nbits := by omega
    cases s with
    | mk i bitmap iters =>
      simp only at hi
      subst hi
      exact ⟨bitmap, by simp [bitmap_set_loop]⟩
  | succ fuel ih =>
    intro s hle hfuel
    by_cases hlt : s.i < nbits
    · rw [bitmap_set_loop, if_pos hlt]
      cases hbody : loopBody sz start s with
      | none => exact Or.inr ⟨_, rfl⟩
      | some s' =>
        have hinc : (s.i + 1) % UINT_MOD = s.i + 1 := Nat.mod_eq_of_lt (by omega)
        have hs' : s'.i = s.i + 1 ∧ s'.iters = s.iters + 1 := by
          unfold loopBody at hbody
          simp only at hbody
          split at hbody
          · exact absurd hbody (by simp)
          · simp only [Option.some.injEq] at hbody
            subst hbody
            exact ⟨hinc, rfl⟩
        simp only
        rcases ih s' (by omega) (by omega) with ⟨bm, h⟩ | ⟨idx, h⟩
        · left
          refine ⟨bm, ?_⟩
          rw [h, hs'.1, hs'.2]
          congr 2
          omega
        · exact Or.inr ⟨idx, h⟩
    · left
      have hi : s.i = nbits := by omega
      cases s with
      | mk i bitmap iters =>
        simp only at hi
        subst hi
        exact ⟨bitmap, by simp [bitmap_set_loop]⟩

/-- With the words of the remaining offsets inside the buffer, no amount of fuel leads the
loop to an access outside the buffer. -/
theorem loop_in_bounds (sz start nbits : Nat) (hn : nbits < UINT_MOD) :
    ∀ (fuel : Nat) (s : LoopState), s.i ≤ nbits →
      (∀ i, s.i ≤ i → i < nbits → wordIndex sz (bitIndex start i) < s.bitmap.length) →
      ∀ idx, bitmap_set_loop sz start nbits fuel s ≠ .outOfBounds idx := by
  intro fuel
  induction fuel with
  | zero =>
    intro s _ _ idx
    rw [bitmap_set_loop]
    split <;> simp
  | succ fuel ih =>
    intro s hle hcov idx
    by_cases hlt : s.i < nbits
    · have hidx := hcov s.i (le_refl _) hlt
      have hinc : (s.i + 1) % UINT_MOD = s.i + 1 := Nat.mod_eq_of_lt (by omega)
      have hbody : loopBody sz start s = some
          { i := s.i + 1
            bitmap := s.bitmap.set (wordIndex sz (bitIndex start s.i))
              (s.bitmap[wordIndex sz (bitIndex start s.i)]
                ||| bitMask sz (bitIndex start s.i))
            iters := s.iters + 1 } := by
        simp [loopBody, List.getElem?_eq_getElem hidx, hinc]
      rw [bitmap_set_loop, if_pos hlt, hbody]
      simp only
      apply ih _ (show s.i + 1 ≤ nbits from hlt)
      intro i h1 h2
      rw [List.length_set]
      exact hcov i (by simp only at h1; omega) h2
    · rw [bitmap_set_loop, if_neg hlt]
      simp

/-- The size requirement of the specification gives every touched word, wrap-around of
`start + i` included: `(start + i) % 2 ^ 32 ≤ start + nbits - 1`. -/
theorem covers_of_specCovers {sz : Nat} {bitmap : List Nat} {start nbits : Nat}
    (h : specCovers sz bitmap start nbits) : covers sz bitmap start nbits := by
  intro i hi
  have h1 := h (by omega)
  have h2 : bitIndex start i ≤ start + nbits - 1 :=
    le_trans (Nat.mod_le _ _) (by omega)
  exact lt_of_le_of_lt (Nat.div_le_div_right h2) h1

/-- A buffer with more than `2 ^ 32 / W` words has every word any call can touch. -/
theorem covers_of_big {sz : Nat} {bitmap : List Nat}
    (h : UINT_MOD / wordBits sz < bitmap.length) (start nbits : Nat) :
    covers sz bitmap start nbits := fun i _ =>
  lt_of_le_of_lt (Nat.div_le_div_right (le_of_lt (bitIndex_lt start i))) h

/-- Whole-call form of `loop_spec`: a call on a covering buffer returns, keeps the number of
words, and ORs in exactly the bits of the offsets `0 .. nbits - 1`. -/
theorem bitmap_set_spec {sz : Nat} (hsz : 0 < sz) (bitmap : List Nat) (start nbits : Nat)
    (hn : nbits < UINT_MOD) (hcov : covers sz bitmap start nbits) :
    ∃ bm, bitmap_set sz bitmap start nbits = some bm ∧ bm.length = bitmap.length ∧
      ∀ k p, (word bm k).testBit p = true ↔
        ((word bitmap k).testBit p = true ∨ Hits sz start 0 nbits k p) := by
  obtain ⟨bm, hrun, hlen, hbits⟩ := loop_spec hsz start nbits hn nbits
    { i := 0, bitmap := bitmap, iters := 0 } (Nat.zero_le _) (by simp)
    (fun i _ hi => hcov i hi)
  exact ⟨bm, by simp [bitmap_set, bitmap_set_run, hrun], hlen, hbits⟩

/-- Without wrap-around the offsets hitting `(k, p)` are the bit indices of
`[start, start + nbits)` lying at position `p` of word `k`. -/
theorem hits_iff_of_le {sz start nbits : Nat} (h : start + nbits ≤ UINT_MOD) (k p : Nat) :
    Hits sz start 0 nbits k p ↔
      ∃ j, start ≤ j ∧ j < start + nbits ∧ wordIndex sz j = k ∧ bitPos sz j = p := by
  constructor
  · rintro ⟨i, _, hi, hk, hp⟩
    rw [bitIndex_eq_of_lt (by omega)] at hk hp
    exact ⟨start + i, by omega, by omega, hk, hp⟩
  · rintro ⟨j, h1, h2, hk, hp⟩
    refine ⟨j - start, Nat.zero_le _, by omega, ?_, ?_⟩
    · rw [bitIndex_eq_of_lt (by omega), Nat.add_sub_cancel' h1]; exact hk
    · rw [bitIndex_eq_of_lt (by omega), Nat.add_sub_cancel' h1]; exact hp

theorem eq_of_wordIndex_bitPos {sz i j : Nat} (hk : wordIndex sz i = wordIndex sz j)
    (hp : bitPos sz i = bitPos sz j) : i = j := by
  rw [← wordIndex_bitPos sz i, ← wordIndex_bitPos sz j, hk, hp]

/-- Bit-index form of `bitmap_set_spec` for a range that does not wrap. -/
theorem bitmap_set_getBit {sz : Nat} (hsz : 0 < sz) (bitmap : List Nat) (start nbits : Nat)
    (hn : nbits < UINT_MOD) (hsum : start + nbits ≤ UINT_MOD)
    (hcov : covers sz bitmap start nbits) :
    ∃ bm, bitmap_set sz bitmap start nbits = some bm ∧ bm.length = bitmap.length ∧
      (∀ k p, (word bm k).testBit p = true ↔
        ((word bitmap k).testBit p = true ∨ Hits sz start 0 nbits k p)) ∧
      ∀ i, getBit sz bm i = true ↔
        (getBit sz bitmap i = true ∨ (start ≤ i ∧ i < start + nbits)) := by
  obtain ⟨bm, hset, hlen, hbits⟩ := bitmap_set_spec hsz bitmap start nbits hn hcov
  refine ⟨bm, hset, hlen, hbits, ?_⟩
  intro i
  unfold getBit
  rw [hbits, hits_iff_of_le hsum]
  constructor
  · rintro (h | ⟨j, h1, h2, hk, hp⟩)
    · exact Or.inl h
    · have := eq_of_wordIndex_bitPos hk hp
      subst this
      exact Or.inr ⟨h1, h2⟩
  · rintro (h | ⟨h1, h2⟩)
    · exact Or.inl h
    · exact Or.inr ⟨i, h1, h2, rfl, rfl⟩

/-- Bits of a mask assembled position by position over `0 .. n - 1`. -/
theorem testBit_foldl_range (P : Nat → Prop) [DecidablePred P] (n j : Nat) :
    ((List.range n).foldl (fun m i => if P i then m ||| 1 <<< i else m) 0).testBit j = true ↔
      (j < n ∧ P j) := by
  induction n with
  | zero => simp
  | succ n ih =>
    rw [List.range_succ, List.foldl_append]
    simp only [List.foldl_cons, List.foldl_nil]
    by_cases hP : P n
    · rw [if_pos hP, Nat.testBit_lor, Nat.one_shiftLeft, Nat.testBit_two_pow, Bool.or_eq_true,
        ih, decide_eq_true_iff]
      constructor
      · rintro (⟨h1, h2⟩ | h)
        · exact ⟨by omega, h2⟩
        · subst h; exact ⟨by omega, hP⟩
      · rintro ⟨h1, h2⟩
        by_cases hj : n = j
        · exact Or.inr hj
        · exact Or.inl ⟨by omega, h2⟩
    · rw [if_neg hP, ih]
      constructor
      · rintro ⟨h1, h2⟩; exact ⟨by omega, h2⟩
      · rintro ⟨h1, h2⟩
        refine ⟨?_, h2⟩
        by_contra hlt
        have : j = n := by omega
        subst this
        exact hP h2

theorem testBit_rangeMask (sz start nbits k j : Nat) :
    (rangeMask sz start nbits k).testBit j = true ↔
      (j < wordBits sz ∧ start ≤ k * wordBits sz + j ∧ k * wordBits sz + j < start + nbits) :=
  testBit_foldl_range
    (fun j => start ≤ k * wordBits sz + j ∧ k * wordBits sz + j < start + nbits) _ j

/-- Bits `s .. w - 1`. -/
theorem testBit_two_pow_sub_two_pow {s w : Nat} (h : s ≤ w) (j : Nat) :
    (2 ^ w - 2 ^ s).testBit j = true ↔ (s ≤ j ∧ j < w) := by
  have hfac : 2 ^ w - 2 ^ s = (2 ^ (w - s) - 1) <<< s := by
    rw [Nat.shiftLeft_eq, Nat.sub_mul, one_mul, ← pow_add, Nat.sub_add_cancel h]
  rw [hfac, Nat.testBit_shiftLeft, Nat.testBit_two_pow_sub_one]
  simp only [Bool.and_eq_true, decide_eq_true_iff, ge_iff_le]
  constructor
  · rintro ⟨h1, h2⟩; exact ⟨h1, by omega⟩
  · rintro ⟨h1, h2⟩; exact ⟨h1, by omega⟩

/-- Without wrap-around, the offsets hitting `(k, p)` exist exactly when bit `p` of
`rangeMask … k` is set. -/
theorem hits_iff_rangeMask {sz start nbits : Nat} (hsz : 0 < sz)
    (h : start + nbits ≤ UINT_MOD) (k p : Nat) :
    Hits sz start 0 nbits k p ↔ (rangeMask sz start nbits k).testBit p = true := by
  rw [hits_iff_of_le h, testBit_rangeMask]
  have hW := wordBits_pos hsz
  constructor
  · rintro ⟨j, h1, h2, hk, hp⟩
    have hj := wordIndex_bitPos sz j
    rw [hk, hp, Nat.mul_comm] at hj
    refine ⟨?_, by omega, by omega⟩
    rw [← hp]; exact bitPos_lt hsz j
  · rintro ⟨hp, h1, h2⟩
    refine ⟨k * wordBits sz + p, h1, h2, ?_, ?_⟩
    · unfold wordIndex
      rw [Nat.mul_comm, Nat.mul_add_div hW, Nat.div_eq_of_lt hp, Nat.add_zero]
    · unfold bitPos
      rw [Nat.mul_comm, Nat.mul_add_mod, Nat.mod_eq_of_lt hp]

/-! ## The claims -/

/-- C1: for `start`, `nbits` below `2 ^ 32` with `start + nbits ≤ 2 ^ 32` and a buffer that
has word `(start + nbits - 1) / W` whenever `nbits > 0`, the call returns a buffer in which
bit `i % W` of word `i / W` is 1 for every `i` with `start ≤ i < start + nbits`. -/
theorem bitmap_set_sets_range (sz : Nat) (hsz : 0 < sz) (bitmap : List Nat)
    (start nbits : Nat) (_hs : start < UINT_MOD) (hn : nbits < UINT_MOD)
    (hsum : start + nbits ≤ UINT_MOD) (hcov : specCovers sz bitmap start nbits) :
    ∃ bm, bitmap_set sz bitmap start nbits = some bm ∧
      ∀ i, start ≤ i → i < start + nbits →
        (word bm (i / wordBits sz)).testBit (i % wordBits sz) = true := by
  obtain ⟨bm, hset, _, _, hbit⟩ :=
    bitmap_set_getBit hsz bitmap start nbits hn hsum (covers_of_specCovers hcov)
  exact ⟨bm, hset, fun i h1 h2 => (hbit i).mpr (Or.inr ⟨h1, h2⟩)⟩

/-- Instance of C1 at word width 8: buffer `[0x00]`, `start = 0`, `nbits = 3`; the call
itself evaluates to `[0x07]`. -/
theorem bitmap_set_sets_range_witness :
    bitmap_set 1 [0x00] 0 3 = some [0x07] ∧
    ∃ bm, bitmap_set 1 [0x00] 0 3 = some bm ∧
      ∀ i, 0 ≤ i → i < 0 + 3 → (word bm (i / wordBits 1)).testBit (i % wordBits 1) = true :=
  ⟨by decide,
   bitmap_set_sets_range 1 (by decide) [0x00] 0 3 (by decide) (by decide) (by decide)
    (by intro _; decide)⟩

/-- C2: under the same conditions every bit whose index lies outside
`[start, start + nbits)` keeps its value, the buffer keeps its number of words, and every
word holding no bit of the range is equal to its old value. -/
theorem bitmap_set_frame (sz : Nat) (hsz : 0 < sz) (bitmap : List Nat)
    (start nbits : Nat) (_hs : start < UINT_MOD) (hn : nbits < UINT_MOD)
    (hsum : start + nbits ≤ UINT_MOD) (hcov : specCovers sz bitmap start nbits) :
    ∃ bm, bitmap_set sz bitmap start nbits = some bm ∧
      bm.length = bitmap.length ∧
      (∀ i, ¬ (start ≤ i ∧ i < start + nbits) → getBit sz bm i = getBit sz bitmap i) ∧
      (∀ k, (∀ i, start ≤ i → i < start + nbits → wordIndex sz i ≠ k) →
        bm[k]? = bitmap[k]?) := by
  obtain ⟨bm, hset, hlen, hbits, hbit⟩ :=
    bitmap_set_getBit hsz bitmap start nbits hn hsum (covers_of_specCovers hcov)
  refine ⟨bm, hset, hlen, ?_, ?_⟩
  · intro i hi
    rw [Bool.eq_iff_iff, hbit i]
    exact ⟨fun h => h.resolve_right hi, Or.inl⟩
  · intro k hk
    have hw : word bm k = word bitmap k := by
      apply Nat.eq_of_testBit_eq
      intro p
      rw [Bool.eq_iff_iff, hbits k p, hits_iff_of_le hsum]
      constructor
      · rintro (h | ⟨j, h1, h2, hj, _⟩)
        · exact h
        · exact absurd hj (hk j h1 h2)
      · exact Or.inl
    by_cases hlt : k < bitmap.length
    · have hlt' : k < bm.length := by omega
      simp only [word, List.getD_eq_getElem?_getD, List.getElem?_eq_getElem hlt,
        List.getElem?_eq_getElem hlt', Option.getD_some] at hw
      rw [List.getElem?_eq_getElem hlt, List.getElem?_eq_getElem hlt', hw]
    · rw [List.getElem?_eq_none (by omega), List.getElem?_eq_none (by omega)]

/-- Instance of C2 at word width 8: buffer `[0xA5, 0x5A, 0x81]`, `start = 6`,
`nbits = 4`. -/
theorem bitmap_set_frame_witness :
    bitmap_set 1 [0xA5, 0x5A, 0x81] 6 4 = some [0xE5, 0x5B, 0x81] ∧
    ∃ bm, bitmap_set 1 [0xA5, 0x5A, 0x81] 6 4 = some bm ∧
      bm.length = [0xA5, 0x5A, 0x81].length ∧
      (∀ i, ¬ (6 ≤ i ∧ i < 6 + 4) → getBit 1 bm i = getBit 1 [0xA5, 0x5A, 0x81] i) ∧
      (∀ k, (∀ i, 6 ≤ i → i < 6 + 4 → wordIndex 1 i ≠ k) →
        bm[k]? = [0xA5, 0x5A, 0x81][k]?) :=
  ⟨by decide,
   bitmap_set_frame 1 (by decide) [0xA5, 0x5A, 0x81] 6 4 (by decide) (by decide) (by decide)
    (by intro _; decide)⟩

/-- C3: with `nbits = 0` the loop body is never executed, whatever the buffer (the empty
one included), `start` and the fuel: the run ends at once with the buffer it was given. -/
theorem bitmap_set_zero (sz : Nat) (bitmap : List Nat) (start fuel : Nat) :
    bitmap_set_run sz bitmap start 0 fuel
        = .done { i := 0, bitmap := bitmap, iters := 0 } ∧
      bitmap_set sz bitmap start 0 = some bitmap := by
  constructor
  · cases fuel <;> simp [bitmap_set_run, bitmap_set_loop]
  · simp [bitmap_set, bitmap_set_run, bitmap_set_loop]

/-- C4: on a buffer that has every touched word, a second call with the same arguments
returns the buffer the first call returned. -/
theorem bitmap_set_idempotent (sz : Nat) (hsz : 0 < sz) (bitmap : List Nat)
    (start nbits : Nat) (hn : nbits < UINT_MOD) (hcov : covers sz bitmap start nbits) :
    ∃ bm, bitmap_set sz bitmap start nbits = some bm ∧
      bitmap_set sz bm start nbits = some bm := by
  obtain ⟨bm, hset, hlen, hbits⟩ := bitmap_set_spec hsz bitmap start nbits hn hcov
  have hcov' : covers sz bm start nbits := fun i hi => by rw [hlen]; exact hcov i hi
  obtain ⟨bm2, hset2, hlen2, hbits2⟩ := bitmap_set_spec hsz bm start nbits hn hcov'
  refine ⟨bm, hset, ?_⟩
  rw [hset2]
  congr 1
  apply eq_of_word_eq hlen2
  intro k _
  apply Nat.eq_of_testBit_eq
  intro p
  rw [Bool.eq_iff_iff, hbits2 k p, hbits k p]
  constructor
  · rintro (h | h)
    · exact h
    · exact Or.inr h
  · exact Or.inl

/-- Instance of C4 at word width 8: buffer `[0x00, 0x10]`, `start = 6`, `nbits = 4`. -/
theorem bitmap_set_idempotent_witness :
    bitmap_set 1 [0x00, 0x10] 6 4 = some [0xC0, 0x13] ∧
    ∃ bm, bitmap_set 1 [0x00, 0x10] 6 4 = some bm ∧ bitmap_set 1 bm 6 4 = some bm :=
  ⟨by decide,
   bitmap_set_idempotent 1 (by decide) [0x00, 0x10] 6 4 (by decide)
    (by intro i hi; interval_cases i <;> decide)⟩

/-- C5: on a buffer that has every touched word (wrap-around of `start + i` allowed), every
bit that is 1 before the call is 1 after it, and every word of the result AND-ed with its
old value is the old value. -/
theorem bitmap_set_never_clears (sz : Nat) (hsz : 0 < sz) (bitmap : List Nat)
    (start nbits : Nat) (hn : nbits < UINT_MOD) (hcov : covers sz bitmap start nbits) :
    ∃ bm, bitmap_set sz bitmap start nbits = some bm ∧
      (∀ i, getBit sz bitmap i = true → getBit sz bm i = true) ∧
      (∀ k, word bm k &&& word bitmap k = word bitmap k) := by
  obtain ⟨bm, hset, _, hbits⟩ := bitmap_set_spec hsz bitmap start nbits hn hcov
  refine ⟨bm, hset, fun i h => (hbits _ _).mpr (Or.inl h), ?_⟩
  intro k
  apply Nat.eq_of_testBit_eq
  intro p
  rw [Nat.testBit_and]
  cases hp : (word bitmap k).testBit p with
  | false => simp
  | true => simp [(hbits k p).mpr (Or.inl hp)]

/-- Instance of C5 at word width 8: buffer `[0x81]`, `start = 2`, `nbits = 3`. -/
theorem bitmap_set_never_clears_witness :
    bitmap_set 1 [0x81] 2 3 = some [0x9D] ∧
    ∃ bm, bitmap_set 1 [0x81] 2 3 = some bm ∧
      (∀ i, getBit 1 [0x81] i = true → getBit 1 bm i = true) ∧
      (∀ k, word bm k &&& word [0x81] k = word [0x81] k) :=
  ⟨by decide,
   bitmap_set_never_clears 1 (by decide) [0x81] 2 3 (by decide)
    (by intro i hi; interval_cases i <;> decide)⟩

/-- C6: on a zero-initialised buffer of `len` words that satisfies the size requirement for
two ranges, neither of which wraps, the two calls in a row return, bit `i` of the result is 1
exactly when `i` lies in one of the two ranges, and every bit set by the first call is still
set after the second. -/
theorem bitmap_set_union (sz : Nat) (hsz : 0 < sz) (len s1 n1 s2 n2 : Nat)
    (hn1 : n1 < UINT_MOD) (hn2 : n2 < UINT_MOD)
    (hsum1 : s1 + n1 ≤ UINT_MOD) (hsum2 : s2 + n2 ≤ UINT_MOD)
    (hcov1 : specCovers sz (List.replicate len 0) s1 n1)
    (hcov2 : specCovers sz (List.replicate len 0) s2 n2) :
    ∃ b1 b2, bitmap_set sz (List.replicate len 0) s1 n1 = some b1 ∧
      bitmap_set sz b1 s2 n2 = some b2 ∧
      (∀ i, getBit sz b2 i = true ↔ ((s1 ≤ i ∧ i < s1 + n1) ∨ (s2 ≤ i ∧ i < s2 + n2))) ∧
      (∀ i, getBit sz b1 i = true → getBit sz b2 i = true) := by
  obtain ⟨b1, hset1, hlen1, _, hbit1⟩ :=
    bitmap_set_getBit hsz _ s1 n1 hn1 hsum1 (covers_of_specCovers hcov1)
  have hcov2' : covers sz b1 s2 n2 := fun i hi => by
    rw [hlen1]; exact covers_of_specCovers hcov2 i hi
  obtain ⟨b2, hset2, _, _, hbit2⟩ := bitmap_set_getBit hsz b1 s2 n2 hn2 hsum2 hcov2'
  have hzero : ∀ i, getBit sz (List.replicate len 0) i = false := by
    intro i
    unfold getBit word
    rw [List.getD_eq_getElem?_getD, List.getElem?_replicate]
    split <;> simp
  refine ⟨b1, b2, hset1, hset2, ?_, fun i h => (hbit2 i).mpr (Or.inl h)⟩
  intro i
  rw [hbit2 i, hbit1 i, hzero i]
  simp

/-- Instance of C6 at word width 8: three zero words, the overlapping ranges
`[6, 10)` and `[8, 19)`. -/
theorem bitmap_set_union_witness :
    (bitmap_set 1 (List.replicate 3 0) 6 4).bind (fun b => bitmap_set 1 b 8 11)
      = some [0xC0, 0xFF, 0x07] ∧
    ∃ b1 b2, bitmap_set 1 (List.replicate 3 0) 6 4 = some b1 ∧
      bitmap_set 1 b1 8 11 = some b2 ∧
      (∀ i, getBit 1 b2 i = true ↔ ((6 ≤ i ∧ i < 6 + 4) ∨ (8 ≤ i ∧ i < 8 + 11))) ∧
      (∀ i, getBit 1 b1 i = true → getBit 1 b2 i = true) :=
  ⟨by decide,
   bitmap_set_union 1 (by decide) 3 6 4 8 11 (by decide) (by decide) (by decide) (by decide)
    (by intro _; decide) (by intro _; decide)⟩

/-- C7: for a range without wrap-around that spans two or more words, every word `k` of the
result is the old word OR-ed with the mask whose bit `j` is 1 exactly when
`start ≤ k * W + j < start + nbits`; that mask is bits `start % W .. W - 1` in the first
word, all `W` bits in every middle word (so a middle word becomes all ones), and bits
`0 .. (start + nbits - 1) % W` in the last word. -/
theorem bitmap_set_spanning (sz : Nat) (hsz : 0 < sz) (bitmap : List Nat)
    (start nbits : Nat) (_hs : start < UINT_MOD) (hn : nbits < UINT_MOD)
    (hsum : start + nbits ≤ UINT_MOD) (hcov : specCovers sz bitmap start nbits)
    (hspan : start / wordBits sz < (start + nbits - 1) / wordBits sz) :
    ∃ bm, bitmap_set sz bitmap start nbits = some bm ∧
      bm.length = bitmap.length ∧
      (∀ k, word bm k = word bitmap k ||| rangeMask sz start nbits k) ∧
      (∀ k j, (rangeMask sz start nbits k).testBit j = true ↔
        (j < wordBits sz ∧
          start ≤ k * wordBits sz + j ∧ k * wordBits sz + j < start + nbits)) ∧
      rangeMask sz start nbits (start / wordBits sz)
        = 2 ^ wordBits sz - 2 ^ (start % wordBits sz) ∧
      (∀ k, start / wordBits sz < k → k < (start + nbits - 1) / wordBits sz →
        rangeMask sz start nbits k = 2 ^ wordBits sz - 1 ∧
        (word bitmap k < 2 ^ wordBits sz → word bm k = 2 ^ wordBits sz - 1)) ∧
      rangeMask sz start nbits ((start + nbits - 1) / wordBits sz)
        = 2 ^ ((start + nbits - 1) % wordBits sz + 1) - 1 := by
  obtain ⟨bm, hset, hlen, hbits⟩ :=
    bitmap_set_spec hsz bitmap start nbits hn (covers_of_specCovers hcov)
  have hW := wordBits_pos hsz
  -- the first and the last word of the range, in `k * W + r` form
  have hfirst := Nat.div_add_mod start (wordBits sz)
  have hlast := Nat.div_add_mod (start + nbits - 1) (wordBits sz)
  have hr0 := Nat.mod_lt start hW
  have hr1 := Nat.mod_lt (start + nbits - 1) hW
  rw [Nat.mul_comm] at hfirst hlast
  have hstep : (start / wordBits sz + 1) * wordBits sz
      ≤ (start + nbits - 1) / wordBits sz * wordBits sz :=
    Nat.mul_le_mul_right _ hspan
  rw [Nat.add_mul, Nat.one_mul] at hstep
  have hword : ∀ k, word bm k = word bitmap k ||| rangeMask sz start nbits k := by
    intro k
    apply Nat.eq_of_testBit_eq
    intro p
    rw [Bool.eq_iff_iff, hbits k p, Nat.testBit_lor, Bool.or_eq_true,
      hits_iff_rangeMask hsz hsum]
  have hmid : ∀ k, start / wordBits sz < k → k < (start + nbits - 1) / wordBits sz →
      rangeMask sz start nbits k = 2 ^ wordBits sz - 1 := by
    intro k h1 h2
    apply Nat.eq_of_testBit_eq
    intro j
    rw [Bool.eq_iff_iff, testBit_rangeMask, Nat.testBit_two_pow_sub_one, decide_eq_true_iff]
    have hlo : (start / wordBits sz + 1) * wordBits sz ≤ k * wordBits sz :=
      Nat.mul_le_mul_right _ h1
    have hhi : (k + 1) * wordBits sz ≤ (start + nbits - 1) / wordBits sz * wordBits sz :=
      Nat.mul_le_mul_right _ h2
    rw [Nat.add_mul, Nat.one_mul] at hlo hhi
    constructor
    · exact fun h => h.1
    · exact fun h => ⟨h, by omega, by omega⟩
  refine ⟨bm, hset, hlen, hword, testBit_rangeMask sz start nbits, ?_, ?_, ?_⟩
  · apply Nat.eq_of_testBit_eq
    intro j
    rw [Bool.eq_iff_iff, testBit_rangeMask, testBit_two_pow_sub_two_pow (le_of_lt hr0)]
    constructor
    · rintro ⟨h1, h2, _⟩; exact ⟨by omega, h1⟩
    · rintro ⟨h1, h2⟩; exact ⟨h2, by omega, by omega⟩
  · intro k h1 h2
    refine ⟨hmid k h1 h2, fun hlt => ?_⟩
    rw [hword k, hmid k h1 h2]
    apply Nat.eq_of_testBit_eq
    intro j
    rw [Nat.testBit_lor, Nat.testBit_two_pow_sub_one]
    by_cases hj : j < wordBits sz
    · simp [hj]
    · have : (word bitmap k).testBit j = false :=
        Nat.testBit_lt_two_pow (lt_of_lt_of_le hlt
          (Nat.pow_le_pow_right (by decide) (by omega)))
      simp [hj, this]
  · apply Nat.eq_of_testBit_eq
    intro j
    rw [Bool.eq_iff_iff, testBit_rangeMask, Nat.testBit_two_pow_sub_one, decide_eq_true_iff]
    constructor
    · rintro ⟨_, _, h3⟩; omega
    · intro h; exact ⟨by omega, by omega, by omega⟩

/-- Instance of C7 at word width 8: buffer `[0x00, 0x00]`, `start = 6`, `nbits = 4`; the
call itself evaluates to `[0xC0, 0x03]`. -/
theorem bitmap_set_spanning_witness :
    bitmap_set 1 [0x00, 0x00] 6 4 = some [0xC0, 0x03] ∧
    ∃ bm, bitmap_set 1 [0x00, 0x00] 6 4 = some bm ∧
      bm.length = [0x00, 0x00].length ∧
      (∀ k, word bm k = word [0x00, 0x00] k ||| rangeMask 1 6 4 k) ∧
      (∀ k j, (rangeMask 1 6 4 k).testBit j = true ↔
        (j < wordBits 1 ∧ 6 ≤ k * wordBits 1 + j ∧ k * wordBits 1 + j < 6 + 4)) ∧
      rangeMask 1 6 4 (6 / wordBits 1) = 2 ^ wordBits 1 - 2 ^ (6 % wordBits 1) ∧
      (∀ k, 6 / wordBits 1 < k → k < (6 + 4 - 1) / wordBits 1 →
        rangeMask 1 6 4 k = 2 ^ wordBits 1 - 1 ∧
        (word [0x00, 0x00] k < 2 ^ wordBits 1 → word bm k = 2 ^ wordBits 1 - 1)) ∧
      rangeMask 1 6 4 ((6 + 4 - 1) / wordBits 1) = 2 ^ ((6 + 4 - 1) % wordBits 1 + 1) - 1 :=
  ⟨by decide,
   bitmap_set_spanning 1 (by decide) [0x00, 0x00] 6 4 (by decide) (by decide) (by decide)
    (by intro _; decide) (by decide)⟩

/-- C8: under the size requirement of the specification alone (word
`(start + nbits - 1) / W`, computed without wrap-around, is inside the buffer when
`nbits > 0`), every offset `i < nbits` gives a word index inside the buffer and a shift
amount below `W`; no run of the bounds-checked loop, whatever its fuel, ends at an access
outside the buffer, and the call returns a buffer. -/
theorem bitmap_set_in_bounds (sz : Nat) (hsz : 0 < sz) (bitmap : List Nat)
    (start nbits : Nat) (_hs : start < UINT_MOD) (hn : nbits < UINT_MOD)
    (hcov : specCovers sz bitmap start nbits) :
    (∀ i, i < nbits →
      wordIndex sz (bitIndex start i) < bitmap.length ∧
      bitPos sz (bitIndex start i) < wordBits sz) ∧
    (∀ fuel idx, bitmap_set_run sz bitmap start nbits fuel ≠ .outOfBounds idx) ∧
    ∃ bm, bitmap_set sz bitmap start nbits = some bm := by
  have hc := covers_of_specCovers hcov
  refine ⟨fun i hi => ⟨hc i hi, bitPos_lt hsz _⟩, ?_, ?_⟩
  · intro fuel idx
    exact loop_in_bounds sz start nbits hn fuel _ (Nat.zero_le _) (fun i _ hi => hc i hi) idx
  · obtain ⟨bm, hset, _⟩ := bitmap_set_spec hsz bitmap start nbits hn hc
    exact ⟨bm, hset⟩

/-- Instance of C8 at word width 8: buffer `[0x00, 0x00]`, `start = 6`, `nbits = 4`. -/
theorem bitmap_set_in_bounds_witness :
    (∀ i, i < 4 →
      wordIndex 1 (bitIndex 6 i) < [0x00, 0x00].length ∧
      bitPos 1 (bitIndex 6 i) < wordBits 1) ∧
    (∀ fuel idx, bitmap_set_run 1 [0x00, 0x00] 6 4 fuel ≠ .outOfBounds idx) ∧
    ∃ bm, bitmap_set 1 [0x00, 0x00] 6 4 = some bm :=
  bitmap_set_in_bounds 1 (by decide) [0x00, 0x00] 6 4 (by decide) (by decide)
    (by intro _; decide)

/-- C9: for every `start` and every `nbits` below `2 ^ 32`, a run allowed `nbits` or more
body executions never ends for lack of fuel; when it reaches the end of the loop the
counter is `nbits` and the body has been executed exactly `nbits` times, which is what
happens on every buffer holding the touched words; and `++i` never wraps at a counter
value at which the body runs. -/
theorem bitmap_set_terminates (sz : Nat) (bitmap : List Nat) (start nbits fuel : Nat)
    (hn : nbits < UINT_MOD) (hfuel : nbits ≤ fuel) :
    bitmap_set_run sz bitmap start nbits fuel ≠ .outOfFuel ∧
    (∀ s, bitmap_set_run sz bitmap start nbits fuel = .done s →
      s.i = nbits ∧ s.iters = nbits) ∧
    (covers sz bitmap start nbits →
      ∃ bm, bitmap_set_run sz bitmap start nbits fuel
        = .done { i := nbits, bitmap := bm, iters := nbits }) ∧
    (∀ i, i < nbits → (i + 1) % UINT_MOD = i + 1) := by
  have hout := loop_outcome sz start nbits hn fuel
    { i := 0, bitmap := bitmap, iters := 0 } (Nat.zero_le _) (by simpa using hfuel)
  simp only [Nat.sub_zero, Nat.zero_add] at hout
  refine ⟨?_, ?_, ?_, fun i hi => Nat.mod_eq_of_lt (by omega)⟩
  · rcases hout with ⟨bm, h⟩ | ⟨idx, h⟩ <;> simp [bitmap_set_run, h]
  · intro s hs
    rcases hout with ⟨bm, h⟩ | ⟨idx, h⟩
    · rw [bitmap_set_run, h, Outcome.done.injEq] at hs
      subst hs
      exact ⟨rfl, rfl⟩
    · rw [bitmap_set_run, h] at hs
      exact absurd hs (by simp)
  · intro hc
    rcases hout with ⟨bm, h⟩ | ⟨idx, h⟩
    · exact ⟨bm, h⟩
    · exact absurd h
        (loop_in_bounds sz start nbits hn fuel _ (Nat.zero_le _) (fun i _ hi => hc i hi) idx)

/-- Instance of C9 at the largest count, on a buffer that holds every touched word:
`nbits = 2 ^ 32 - 1` from `start = 2 ^ 32 - 1`, 8-byte words, a zero-initialised buffer of
`2 ^ 26 + 1` words, exactly `nbits` body executions allowed.  The run ends at the loop test
with counter and body count `2 ^ 32 - 1`.  At word width 8 the run on `[0x00, 0x00]` with
`start = 6`, `nbits = 4` evaluates to four body executions and `[0xC0, 0x03]`. -/
theorem bitmap_set_terminates_witness :
    bitmap_set_run 1 [0x00, 0x00] 6 4 4
      = .done { i := 4, bitmap := [0xC0, 0x03], iters := 4 } ∧
    covers 8 (List.replicate (2 ^ 26 + 1) 0) 4294967295 4294967295 ∧
    (∃ bm, bitmap_set_run 8 (List.replicate (2 ^ 26 + 1) 0) 4294967295 4294967295 4294967295
      = .done { i := 4294967295, bitmap := bm, iters := 4294967295 }) ∧
    (bitmap_set_run 8 (List.replicate (2 ^ 26 + 1) 0) 4294967295 4294967295 4294967295
        ≠ .outOfFuel ∧
      (∀ s, bitmap_set_run 8 (List.replicate (2 ^ 26 + 1) 0) 4294967295 4294967295 4294967295
          = .done s → s.i = 4294967295 ∧ s.iters = 4294967295) ∧
      (covers 8 (List.replicate (2 ^ 26 + 1) 0) 4294967295 4294967295 →
        ∃ bm, bitmap_set_run 8 (List.replicate (2 ^ 26 + 1) 0)
            4294967295 4294967295 4294967295
          = .done { i := 4294967295, bitmap := bm, iters := 4294967295 }) ∧
      (∀ i, i < 4294967295 → (i + 1) % UINT_MOD = i + 1)) :=
  ⟨by decide,
   covers_of_big (by rw [List.length_replicate]; decide) _ _,
   (bitmap_set_terminates 8 (List.replicate (2 ^ 26 + 1) 0) 4294967295 4294967295 4294967295
      (by decide) (le_refl _)).2.2.1
     (covers_of_big (by rw [List.length_replicate]; decide) _ _),
   bitmap_set_terminates 8 (List.replicate (2 ^ 26 + 1) 0) 4294967295 4294967295 4294967295
     (by decide) (le_refl _)⟩

/-- C10: when every bit of `[start, start + nbits)` is already 1 (no wrap-around, buffer
satisfying the size requirement), the call returns the buffer it was given. -/
theorem bitmap_set_already_set (sz : Nat) (hsz : 0 < sz) (bitmap : List Nat)
    (start nbits : Nat) (_hs : start < UINT_MOD) (hn : nbits < UINT_MOD)
    (hsum : start + nbits ≤ UINT_MOD) (hcov : specCovers sz bitmap start nbits)
    (hall : ∀ i, start ≤ i → i < start + nbits → getBit sz bitmap i = true) :
    bitmap_set sz bitmap start nbits = some bitmap := by
  obtain ⟨bm, hset, hlen, hbits⟩ :=
    bitmap_set_spec hsz bitmap start nbits hn (covers_of_specCovers hcov)
  rw [hset]
  congr 1
  apply eq_of_word_eq hlen
  intro k _
  apply Nat.eq_of_testBit_eq
  intro p
  rw [Bool.eq_iff_iff, hbits k p, hits_iff_of_le hsum]
  constructor
  · rintro (h | ⟨j, h1, h2, hk, hp⟩)
    · exact h
    · have := hall j h1 h2
      rw [getBit, hk, hp] at this
      exact this
  · exact Or.inl

/-- Instance of C10 at word width 8: buffer `[0xFF]`, `start = 2`, `nbits = 3`. -/
theorem bitmap_set_already_set_witness : bitmap_set 1 [0xFF] 2 3 = some [0xFF] :=
  bitmap_set_already_set 1 (by decide) [0xFF] 2 3 (by decide) (by decide) (by decide)
    (by intro _; decide)
    (by intro i h1 h2; interval_cases i <;> decide)

/-! ## Wrap-around, composition and order -/

/-- The offsets hitting the word and position of bit index `x` are those with
`(start + i) % 2 ^ 32 = x`. -/
theorem hits_iff_bitIndex (sz start nbits x : Nat) :
    Hits sz start 0 nbits (wordIndex sz x) (bitPos sz x) ↔
      ∃ i, i < nbits ∧ bitIndex start i = x := by
  constructor
  · rintro ⟨i, _, hi, hk, hp⟩
    exact ⟨i, hi, eq_of_wordIndex_bitPos hk hp⟩
  · rintro ⟨i, hi, rfl⟩
    exact ⟨i, Nat.zero_le _, hi, rfl, rfl⟩

/-- The bit of offset `i` counted from `(start + n) % 2 ^ 32` is the bit of offset `n + i`
counted from `start`. -/
theorem bitIndex_bitIndex (start n i : Nat) :
    bitIndex ((start + n) % UINT_MOD) i = bitIndex start (n + i) := by
  unfold bitIndex
  rw [Nat.mod_add_mod, Nat.add_assoc]

/-- The offsets of `0 .. n + m - 1` are those of `0 .. n - 1` together with those of
`0 .. m - 1` counted from `(start + n) % 2 ^ 32`. -/
theorem hits_add (sz start n m k p : Nat) :
    Hits sz start 0 (n + m) k p ↔
      (Hits sz start 0 n k p ∨ Hits sz ((start + n) % UINT_MOD) 0 m k p) := by
  constructor
  · rintro ⟨i, _, hi, hk, hp⟩
    by_cases hlt : i < n
    · exact Or.inl ⟨i, Nat.zero_le _, hlt, hk, hp⟩
    · right
      refine ⟨i - n, Nat.zero_le _, by omega, ?_, ?_⟩
      · rw [bitIndex_bitIndex, Nat.add_sub_cancel' (by omega)]; exact hk
      · rw [bitIndex_bitIndex, Nat.add_sub_cancel' (by omega)]; exact hp
  · rintro (⟨i, _, hi, hk, hp⟩ | ⟨i, _, hi, hk, hp⟩)
    · exact ⟨i, Nat.zero_le _, by omega, hk, hp⟩
    · rw [bitIndex_bitIndex] at hk hp
      exact ⟨n + i, Nat.zero_le _, by omega, hk, hp⟩

theorem bodyAt_of_lt {sz start : Nat} {bitmap : List Nat} {i : Nat}
    (h : wordIndex sz (bitIndex start i) < bitmap.length) :
    bodyAt sz start bitmap i = some
      (bitmap.set (wordIndex sz (bitIndex start i))
        (word bitmap (wordIndex sz (bitIndex start i)) ||| bitMask sz (bitIndex start i))) := by
  have hw := List.getElem?_eq_getElem h
  simp [bodyAt, loopBody, hw, word_eq_of_getElem? hw]

theorem bodyAt_of_le {sz start : Nat} {bitmap : List Nat} {i : Nat}
    (h : bitmap.length ≤ wordIndex sz (bitIndex start i)) :
    bodyAt sz start bitmap i = none := by
  simp [bodyAt, loopBody, List.getElem?_eq_none h]

/-- The body applied to a list of offsets whose words are all inside the buffer returns,
keeps the number of words, and ORs in exactly the bits of those offsets. -/
theorem applyOffsets_spec {sz : Nat} (hsz : 0 < sz) (start : Nat) :
    ∀ (offs bitmap : List Nat),
      (∀ i, i ∈ offs → wordIndex sz (bitIndex start i) < bitmap.length) →
      ∃ bm, applyOffsets sz start offs bitmap = some bm ∧ bm.length = bitmap.length ∧
        ∀ k p, (word bm k).testBit p = true ↔
          ((word bitmap k).testBit p = true ∨
            ∃ i, i ∈ offs ∧
              wordIndex sz (bitIndex start i) = k ∧ bitPos sz (bitIndex start i) = p) := by
  intro offs
  induction offs with
  | nil =>
    intro bitmap _
    refine ⟨bitmap, rfl, rfl, fun k p => ⟨Or.inl, ?_⟩⟩
    rintro (h | ⟨i, hi, _⟩)
    · exact h
    · exact absurd hi (List.not_mem_nil i)
  | cons j offs ih =>
    intro bitmap hcov
    have hj := hcov j (List.mem_cons_self j offs)
    obtain ⟨bm, hrun, hlen, hbits⟩ := ih
      (bitmap.set (wordIndex sz (bitIndex start j))
        (word bitmap (wordIndex sz (bitIndex start j)) ||| bitMask sz (bitIndex start j)))
      (fun i hi => by
        rw [List.length_set]
        exact hcov i (List.mem_cons_of_mem j hi))
    refine ⟨bm, ?_, ?_, ?_⟩
    · rw [applyOffsets, bodyAt_of_lt hj, Option.some_bind, hrun]
    · rw [hlen, List.length_set]
    · intro k p
      rw [hbits k p, word_set _ _ _ _ hj]
      constructor
      · rintro (h | ⟨i, hi, hk, hp⟩)
        · by_cases hkj : wordIndex sz (bitIndex start j) = k
          · rw [if_pos hkj, testBit_lor_bitMask hsz, Bool.or_eq_true] at h
            rcases h with h | h
            · left; rw [← hkj]; exact h
            · right
              exact ⟨j, List.mem_cons_self j offs, hkj, of_decide_eq_true h⟩
          · rw [if_neg hkj] at h; exact Or.inl h
        · right; exact ⟨i, List.mem_cons_of_mem j hi, hk, hp⟩
      · rintro (h | ⟨i, hi, hk, hp⟩)
        · left
          by_cases hkj : wordIndex sz (bitIndex start j) = k
          · rw [if_pos hkj, testBit_lor_bitMask hsz, Bool.or_eq_true]
            left; rw [← hkj] at h; exact h
          · rw [if_neg hkj]; exact h
        · rcases List.mem_cons.mp hi with hij | hi'
          · left
            subst hij
            rw [if_pos hk, testBit_lor_bitMask hsz, Bool.or_eq_true]
            right; exact decide_eq_true hp
          · right; exact ⟨i, hi', hk, hp⟩

/-- The body applied to a list holding an offset whose word is outside the buffer does not
return a buffer. -/
theorem applyOffsets_none (sz start : Nat) :
    ∀ (offs bitmap : List Nat),
      (∃ i, i ∈ offs ∧ bitmap.length ≤ wordIndex sz (bitIndex start i)) →
      applyOffsets sz start offs bitmap = none := by
  intro offs
  induction offs with
  | nil =>
    rintro bitmap ⟨i, hi, _⟩
    exact absurd hi (List.not_mem_nil i)
  | cons j offs ih =>
    rintro bitmap ⟨i, hi, hle⟩
    by_cases hj : wordIndex sz (bitIndex start j) < bitmap.length
    · rw [applyOffsets, bodyAt_of_lt hj, Option.some_bind]
      apply ih
      rcases List.mem_cons.mp hi with hij | hi'
      · subst hij; omega
      · exact ⟨i, hi', by rw [List.length_set]; exact hle⟩
    · rw [applyOffsets, bodyAt_of_le (by omega), Option.none_bind]

/-- A loop that still has an offset whose word is outside the buffer never reaches the end
of the loop. -/
theorem loop_not_done (sz start nbits : Nat) (hn : nbits < UINT_MOD) :
    ∀ (fuel : Nat) (s : LoopState),
      (∃ i, s.i ≤ i ∧ i < nbits ∧ s.bitmap.length ≤ wordIndex sz (bitIndex start i)) →
      ∀ t, bitmap_set_loop sz start nbits fuel s ≠ .done t := by
  intro fuel
  induction fuel with
  | zero =>
    rintro s ⟨i, h1, h2, _⟩ t
    rw [bitmap_set_loop, if_pos (by omega)]
    simp
  | succ fuel ih =>
    rintro s ⟨i, h1, h2, hle⟩ t
    have hlt : s.i < nbits := by omega
    rw [bitmap_set_loop, if_pos hlt]
    by_cases hidx : wordIndex sz (bitIndex start s.i) < s.bitmap.length
    · have hinc : (s.i + 1) % UINT_MOD = s.i + 1 := Nat.mod_eq_of_lt (by omega)
      have hbody : loopBody sz start s = some
          { i := s.i + 1
            bitmap := s.bitmap.set (wordIndex sz (bitIndex start s.i))
              (s.bitmap[wordIndex sz (bitIndex start s.i)]
                ||| bitMask sz (bitIndex start s.i))
            iters := s.iters + 1 } := by
        simp [loopBody, List.getElem?_eq_getElem hidx, hinc]
      rw [hbody]
      simp only
      apply ih
      refine ⟨i, ?_, h2, by rw [List.length_set]; exact hle⟩
      simp only
      by_contra hcon
      have : i = s.i := by omega
      subst this
      omega
    · have hbody : loopBody sz start s = none := by
        simp [loopBody, List.getElem?_eq_none (Nat.le_of_not_lt hidx)]
      rw [hbody]
      simp

/-- A call on a buffer that lacks a touched word does not return a buffer. -/
theorem bitmap_set_none (sz : Nat) (bitmap : List Nat) (start nbits : Nat)
    (hn : nbits < UINT_MOD) (h : ¬ covers sz bitmap start nbits) :
    bitmap_set sz bitmap start nbits = none := by
  unfold covers at h
  push_neg at h
  obtain ⟨i, hi, hle⟩ := h
  have hnd := loop_not_done sz start nbits hn nbits
    { i := 0, bitmap := bitmap, iters := 0 } ⟨i, Nat.zero_le _, hi, hle⟩
  unfold bitmap_set bitmap_set_run
  split
  · next t ht => exact absurd ht (hnd t)
  · rfl

theorem word_replicate_zero (len k : Nat) : word (List.replicate len 0) k = 0 := by
  unfold word
  rw [List.getD_eq_getElem?_getD, List.getElem?_replicate]
  split <;> rfl

/-- Two offsets below `nbits < 2 ^ 32` with the same `(start + i) % 2 ^ 32` are equal. -/
theorem bitIndex_inj {start nbits i j : Nat} (hn : nbits < UINT_MOD) (hi : i < nbits)
    (hj : j < nbits) (h : bitIndex start i = bitIndex start j) : i = j := by
  have h1 : i % UINT_MOD = j % UINT_MOD := Nat.ModEq.add_left_cancel' start h
  rwa [Nat.mod_eq_of_lt (by omega), Nat.mod_eq_of_lt (by omega)] at h1

/-- The body applied to any arrangement of the offsets `0 .. nbits - 1` gives what the call
gives: the same buffer when the buffer has every touched word, no buffer otherwise. -/
theorem applyOffsets_perm_range {sz : Nat} (hsz : 0 < sz) (bitmap : List Nat)
    (start nbits : Nat) (hn : nbits < UINT_MOD) (offs : List Nat)
    (hperm : offs.Perm (List.range nbits)) :
    applyOffsets sz start offs bitmap = bitmap_set sz bitmap start nbits := by
  have hmem : ∀ i, i ∈ offs ↔ i < nbits := fun i => by
    rw [hperm.mem_iff, List.mem_range]
  by_cases hcov : covers sz bitmap start nbits
  · obtain ⟨bm, hset, hlen, hbits⟩ := bitmap_set_spec hsz bitmap start nbits hn hcov
    obtain ⟨bm2, hrun, hlen2, hbits2⟩ := applyOffsets_spec hsz start offs bitmap
      (fun i hi => hcov i ((hmem i).mp hi))
    rw [hset, hrun]
    congr 1
    apply eq_of_word_eq (by rw [hlen, hlen2])
    intro k _
    apply Nat.eq_of_testBit_eq
    intro p
    rw [Bool.eq_iff_iff, hbits k p, hbits2 k p]
    constructor
    · rintro (h | ⟨i, hi, hk, hp⟩)
      · exact Or.inl h
      · exact Or.inr ⟨i, Nat.zero_le _, (hmem i).mp hi, hk, hp⟩
    · rintro (h | ⟨i, _, hi, hk, hp⟩)
      · exact Or.inl h
      · exact Or.inr ⟨i, (hmem i).mpr hi, hk, hp⟩
  · rw [bitmap_set_none sz bitmap start nbits hn hcov]
    apply applyOffsets_none
    unfold covers at hcov
    push_neg at hcov
    obtain ⟨i, hi, hle⟩ := hcov
    exact ⟨i, (hmem i).mpr hi, hle⟩

/-! ## The claims, continued -/

/-- C11: for `nbits` below `2 ^ 32`, two different offsets `i, j < nbits` give different
pairs (word index, position in the word) from `bit = (start + i) % 2 ^ 32` and
`bit = (start + j) % 2 ^ 32`; and on a zero-initialised buffer holding the touched words
the call returns a buffer with exactly `nbits` bits set. -/
theorem bitmap_set_distinct_bits (sz : Nat) (hsz : 0 < sz) (start nbits : Nat)
    (hn : nbits < UINT_MOD) :
    (∀ i j, i < nbits → j < nbits → i ≠ j →
      (wordIndex sz (bitIndex start i), bitPos sz (bitIndex start i)) ≠
        (wordIndex sz (bitIndex start j), bitPos sz (bitIndex start j))) ∧
    (∀ len, covers sz (List.replicate len 0) start nbits →
      ∃ bm, bitmap_set sz (List.replicate len 0) start nbits = some bm ∧
        countOnes sz bm = nbits) := by
  constructor
  · intro i j hi hj hij heq
    rw [Prod.mk.injEq] at heq
    exact hij (bitIndex_inj hn hi hj (eq_of_wordIndex_bitPos heq.1 heq.2))
  · intro len hcov
    obtain ⟨bm, hset, hlen, hbits⟩ := bitmap_set_spec hsz _ start nbits hn hcov
    refine ⟨bm, hset, ?_⟩
    have hfin : ((List.range (bm.length * wordBits sz)).filter
        (fun i => getBit sz bm i)).toFinset
          = Finset.image (bitIndex start) (Finset.range nbits) := by
      ext x
      simp only [List.mem_toFinset, List.mem_filter, List.mem_range, Finset.mem_image,
        Finset.mem_range]
      unfold getBit
      rw [hbits, word_replicate_zero, Nat.zero_testBit, hits_iff_bitIndex]
      constructor
      · rintro ⟨_, h | h⟩
        · exact absurd h (by simp)
        · exact h
      · rintro ⟨i, hi, hx⟩
        refine ⟨?_, Or.inr ⟨i, hi, hx⟩⟩
        have := hcov i hi
        rw [hx, ← hlen] at this
        exact Nat.lt_mul_of_div_lt this (wordBits_pos hsz)
    unfold countOnes
    rw [← List.toFinset_card_of_nodup (List.Nodup.filter _ (List.nodup_range _)), hfin,
      Finset.card_image_of_injOn, Finset.card_range]
    intro i hi j hj h
    rw [Finset.coe_range, Set.mem_Iio] at hi hj
    exact bitIndex_inj hn hi hj h

/-- Instance of C11 at word width 8: `start = 6`, `nbits = 4`; on two zero words the call
gives `[0xC0, 0x03]`, which has four bits set. -/
theorem bitmap_set_distinct_bits_witness :
    (bitmap_set 1 (List.replicate 2 0) 6 4 = some [0xC0, 0x03] ∧
      countOnes 1 [0xC0, 0x03] = 4) ∧
    (∀ i j, i < 4 → j < 4 → i ≠ j →
      (wordIndex 1 (bitIndex 6 i), bitPos 1 (bitIndex 6 i)) ≠
        (wordIndex 1 (bitIndex 6 j), bitPos 1 (bitIndex 6 j))) ∧
    (∀ len, covers 1 (List.replicate len 0) 6 4 →
      ∃ bm, bitmap_set 1 (List.replicate len 0) 6 4 = some bm ∧ countOnes 1 bm = 4) :=
  ⟨by decide, bitmap_set_distinct_bits 1 (by decide) 6 4 (by decide)⟩

/-- C12: for `nbits` below `2 ^ 32` and every buffer, the loop body applied to the offsets
`0 .. nbits - 1` in any arrangement, the decreasing one among them, gives what the call
gives, and that is a buffer when the buffer has every touched word. -/
theorem bitmap_set_order_irrelevant (sz : Nat) (hsz : 0 < sz) (bitmap : List Nat)
    (start nbits : Nat) (hn : nbits < UINT_MOD) (offs : List Nat)
    (hperm : offs.Perm (List.range nbits)) :
    applyOffsets sz start offs bitmap = bitmap_set sz bitmap start nbits ∧
    applyOffsets sz start (List.range nbits).reverse bitmap
      = bitmap_set sz bitmap start nbits ∧
    (covers sz bitmap start nbits → ∃ bm, bitmap_set sz bitmap start nbits = some bm) := by
  refine ⟨applyOffsets_perm_range hsz bitmap start nbits hn offs hperm,
    applyOffsets_perm_range hsz bitmap start nbits hn _ (List.reverse_perm _), ?_⟩
  intro hcov
  obtain ⟨bm, hset, _⟩ := bitmap_set_spec hsz bitmap start nbits hn hcov
  exact ⟨bm, hset⟩

/-- Instance of C12 at word width 8: buffer `[0x00, 0x10]`, `start = 6`, `nbits = 4`, the
offsets taken in the order 2, 0, 3, 1. -/
theorem bitmap_set_order_irrelevant_witness :
    applyOffsets 1 6 [2, 0, 3, 1] [0x00, 0x10] = some [0xC0, 0x13] ∧
    (applyOffsets 1 6 [2, 0, 3, 1] [0x00, 0x10] = bitmap_set 1 [0x00, 0x10] 6 4 ∧
      applyOffsets 1 6 (List.range 4).reverse [0x00, 0x10] = bitmap_set 1 [0x00, 0x10] 6 4 ∧
      (covers 1 [0x00, 0x10] 6 4 → ∃ bm, bitmap_set 1 [0x00, 0x10] 6 4 = some bm)) :=
  ⟨by decide,
   bitmap_set_order_irrelevant 1 (by decide) [0x00, 0x10] 6 4 (by decide) [2, 0, 3, 1]
    (by decide)⟩

/-- C13: on a buffer holding the touched words the call returns a buffer whose bit `x` is 1
exactly when it was 1 before or `x = (start + i) % 2 ^ 32` for an offset `i < nbits`, every
other bit keeping its value.  Hence for `start = 2 ^ 32 - 1`, `nbits = 2` and any buffer
large enough to hold bit `2 ^ 32`: bit `0`, which is outside `[start, start + nbits)`, is
set, and bit `2 ^ 32`, which is inside it, keeps its old value. -/
theorem bitmap_set_wraps (sz : Nat) (hsz : 0 < sz) (bitmap : List Nat) (start nbits : Nat)
    (hn : nbits < UINT_MOD) (hcov : covers sz bitmap start nbits) :
    (∃ bm, bitmap_set sz bitmap start nbits = some bm ∧
      bm.length = bitmap.length ∧
      (∀ i, i < nbits → getBit sz bm ((start + i) % 2 ^ 32) = true) ∧
      (∀ x, (∀ i, i < nbits → x ≠ (start + i) % 2 ^ 32) →
        getBit sz bm x = getBit sz bitmap x) ∧
      (∀ x, getBit sz bm x = true ↔
        (getBit sz bitmap x = true ∨ ∃ i, i < nbits ∧ x = (start + i) % 2 ^ 32))) ∧
    (¬ (2 ^ 32 - 1 ≤ 0) ∧ (2 ^ 32 - 1 ≤ 2 ^ 32 ∧ 2 ^ 32 < 2 ^ 32 - 1 + 2) ∧
      ∀ big : List Nat, 2 ^ 32 / wordBits sz < big.length →
        ∃ bm, bitmap_set sz big (2 ^ 32 - 1) 2 = some bm ∧
          getBit sz bm 0 = true ∧ getBit sz bm (2 ^ 32) = getBit sz big (2 ^ 32)) := by
  have key : ∀ (b : List Nat) (st nb : Nat), nb < UINT_MOD → covers sz b st nb →
      ∃ bm, bitmap_set sz b st nb = some bm ∧ bm.length = b.length ∧
        ∀ x, getBit sz bm x = true ↔
          (getBit sz b x = true ∨ ∃ i, i < nb ∧ x = (st + i) % 2 ^ 32) := by
    intro b st nb hnb hc
    obtain ⟨bm, hset, hlen, hbits⟩ := bitmap_set_spec hsz b st nb hnb hc
    refine ⟨bm, hset, hlen, fun x => ?_⟩
    unfold getBit
    rw [hbits, hits_iff_bitIndex]
    constructor
    · rintro (h | ⟨i, hi, hx⟩)
      · exact Or.inl h
      · exact Or.inr ⟨i, hi, hx.symm⟩
    · rintro (h | ⟨i, hi, hx⟩)
      · exact Or.inl h
      · exact Or.inr ⟨i, hi, hx.symm⟩
  refine ⟨?_, by decide, by decide, ?_⟩
  · obtain ⟨bm, hset, hlen, hbit⟩ := key bitmap start nbits hn hcov
    refine ⟨bm, hset, hlen, fun i hi => (hbit _).mpr (Or.inr ⟨i, hi, rfl⟩), ?_, hbit⟩
    intro x hx
    rw [Bool.eq_iff_iff, hbit x]
    constructor
    · rintro (h | ⟨i, hi, h⟩)
      · exact h
      · exact absurd h (hx i hi)
    · exact Or.inl
  · intro big hbig
    obtain ⟨bm, hset, _, hbit⟩ := key big (2 ^ 32 - 1) 2 (by decide)
      (covers_of_big hbig _ _)
    refine ⟨bm, hset, (hbit 0).mpr (Or.inr ⟨1, by decide, by decide⟩), ?_⟩
    rw [Bool.eq_iff_iff, hbit]
    constructor
    · rintro (h | ⟨i, hi, h⟩)
      · exact h
      · have := Nat.mod_lt (2 ^ 32 - 1 + i) (show 0 < 2 ^ 32 by decide)
        omega
    · exact Or.inl

/-- Instance of C13 with 8-byte words: a zero-initialised buffer of `2 ^ 26 + 1` words (large
enough to hold bit `2 ^ 32`), `start = 2 ^ 32 - 1`, `nbits = 2`. -/
theorem bitmap_set_wraps_witness :
    (∃ bm, bitmap_set 8 (List.replicate (2 ^ 26 + 1) 0) (2 ^ 32 - 1) 2 = some bm ∧
      bm.length = (List.replicate (2 ^ 26 + 1) 0).length ∧
      (∀ i, i < 2 → getBit 8 bm ((2 ^ 32 - 1 + i) % 2 ^ 32) = true) ∧
      (∀ x, (∀ i, i < 2 → x ≠ (2 ^ 32 - 1 + i) % 2 ^ 32) →
        getBit 8 bm x = getBit 8 (List.replicate (2 ^ 26 + 1) 0) x) ∧
      (∀ x, getBit 8 bm x = true ↔
        (getBit 8 (List.replicate (2 ^ 26 + 1) 0) x = true ∨
          ∃ i, i < 2 ∧ x = (2 ^ 32 - 1 + i) % 2 ^ 32))) ∧
    (¬ (2 ^ 32 - 1 ≤ 0) ∧ (2 ^ 32 - 1 ≤ 2 ^ 32 ∧ 2 ^ 32 < 2 ^ 32 - 1 + 2) ∧
      ∀ big : List Nat, 2 ^ 32 / wordBits 8 < big.length →
        ∃ bm, bitmap_set 8 big (2 ^ 32 - 1) 2 = some bm ∧
          getBit 8 bm 0 = true ∧ getBit 8 bm (2 ^ 32) = getBit 8 big (2 ^ 32)) :=
  bitmap_set_wraps 8 (by decide) (List.replicate (2 ^ 26 + 1) 0) (2 ^ 32 - 1) 2 (by decide)
    (covers_of_big (by rw [List.length_replicate]; decide) _ _)

/-- C14: for `n + m` below `2 ^ 32` and a buffer holding the touched words, the call for
`n` bits from `start` followed by the call for `m` bits from `(start + n) % 2 ^ 32` returns
the buffer that the single call for `n + m` bits from `start` returns. -/
theorem bitmap_set_adjacent (sz : Nat) (hsz : 0 < sz) (bitmap : List Nat) (start n m : Nat)
    (hnm : n + m < UINT_MOD) (hcov : covers sz bitmap start (n + m)) :
    ∃ b1 b2, bitmap_set sz bitmap start n = some b1 ∧
      bitmap_set sz b1 ((start + n) % UINT_MOD) m = some b2 ∧
      bitmap_set sz bitmap start (n + m) = some b2 := by
  have hcov1 : covers sz bitmap start n := fun i hi => hcov i (by omega)
  obtain ⟨b1, hset1, hlen1, hbits1⟩ := bitmap_set_spec hsz bitmap start n (by omega) hcov1
  have hcov2 : covers sz b1 ((start + n) % UINT_MOD) m := fun i hi => by
    rw [bitIndex_bitIndex, hlen1]
    exact hcov (n + i) (by omega)
  obtain ⟨b2, hset2, hlen2, hbits2⟩ :=
    bitmap_set_spec hsz b1 ((start + n) % UINT_MOD) m (by omega) hcov2
  obtain ⟨b, hset, hlen, hbits⟩ := bitmap_set_spec hsz bitmap start (n + m) hnm hcov
  refine ⟨b1, b2, hset1, hset2, ?_⟩
  rw [hset]
  congr 1
  apply eq_of_word_eq (by rw [hlen, hlen2, hlen1])
  intro k _
  apply Nat.eq_of_testBit_eq
  intro p
  rw [Bool.eq_iff_iff, hbits k p, hbits2 k p, hbits1 k p, hits_add, or_assoc]

/-- Instance of C14 at word width 8: buffer `[0x00, 0x10]`, `start = 6`, `n = 1`,
`m = 3`. -/
theorem bitmap_set_adjacent_witness :
    bitmap_set 1 [0x00, 0x10] 6 (1 + 3) = some [0xC0, 0x13] ∧
    ∃ b1 b2, bitmap_set 1 [0x00, 0x10] 6 1 = some b1 ∧
      bitmap_set 1 b1 ((6 + 1) % UINT_MOD) 3 = some b2 ∧
      bitmap_set 1 [0x00, 0x10] 6 (1 + 3) = some b2 :=
  ⟨by decide,
   bitmap_set_adjacent 1 (by decide) [0x00, 0x10] 6 1 3 (by decide)
    (by intro i hi; interval_cases i <;> decide)⟩

/-- C15: for two ranges with counts below `2 ^ 32`, overlapping or not, and a buffer holding
the words both touch, the two calls return the same buffer in either order. -/
theorem bitmap_set_commute (sz : Nat) (hsz : 0 < sz) (bitmap : List Nat)
    (s1 n1 s2 n2 : Nat) (hn1 : n1 < UINT_MOD) (hn2 : n2 < UINT_MOD)
    (hcov1 : covers sz bitmap s1 n1) (hcov2 : covers sz bitmap s2 n2) :
    ∃ a b r, bitmap_set sz bitmap s1 n1 = some a ∧ bitmap_set sz a s2 n2 = some r ∧
      bitmap_set sz bitmap s2 n2 = some b ∧ bitmap_set sz b s1 n1 = some r := by
  obtain ⟨a, hseta, hlena, hbitsa⟩ := bitmap_set_spec hsz bitmap s1 n1 hn1 hcov1
  obtain ⟨b, hsetb, hlenb, hbitsb⟩ := bitmap_set_spec hsz bitmap s2 n2 hn2 hcov2
  obtain ⟨r, hsetr, hlenr, hbitsr⟩ := bitmap_set_spec hsz a s2 n2 hn2
    (fun i hi => by rw [hlena]; exact hcov2 i hi)
  obtain ⟨r2, hsetr2, hlenr2, hbitsr2⟩ := bitmap_set_spec hsz b s1 n1 hn1
    (fun i hi => by rw [hlenb]; exact hcov1 i hi)
  refine ⟨a, b, r, hseta, hsetr, hsetb, ?_⟩
  rw [hsetr2]
  congr 1
  apply eq_of_word_eq (by rw [hlenr2, hlenb, hlenr, hlena])
  intro k _
  apply Nat.eq_of_testBit_eq
  intro p
  rw [Bool.eq_iff_iff, hbitsr2 k p, hbitsb k p, hbitsr k p, hbitsa k p]
  constructor
  · rintro ((h | h) | h)
    · exact Or.inl (Or.inl h)
    · exact Or.inr h
    · exact Or.inl (Or.inr h)
  · rintro ((h | h) | h)
    · exact Or.inl (Or.inl h)
    · exact Or.inr h
    · exact Or.inl (Or.inr h)

/-- Instance of C15 at word width 8: buffer `[0x01, 0x00, 0x80]`, the overlapping ranges
`[6, 10)` and `[8, 19)`. -/
theorem bitmap_set_commute_witness :
    ((bitmap_set 1 [0x01, 0x00, 0x80] 6 4).bind (fun a => bitmap_set 1 a 8 11)
        = some [0xC1, 0xFF, 0x87] ∧
      (bitmap_set 1 [0x01, 0x00, 0x80] 8 11).bind (fun b => bitmap_set 1 b 6 4)
        = some [0xC1, 0xFF, 0x87]) ∧
    ∃ a b r, bitmap_set 1 [0x01, 0x00, 0x80] 6 4 = some a ∧ bitmap_set 1 a 8 11 = some r ∧
      bitmap_set 1 [0x01, 0x00, 0x80] 8 11 = some b ∧ bitmap_set 1 b 6 4 = some r :=
  ⟨by decide,
   bitmap_set_commute 1 (by decide) [0x01, 0x00, 0x80] 6 4 8 11 (by decide) (by decide)
    (by intro i hi; interval_cases i <;> decide)
    (by intro i hi; interval_cases i <;> decide)⟩

end Bitmap
